import Mathlib

/-!
Verification of the encoder adapter layer in `vae/modules/encoder.py`.

The file defines an abstract `Encoder` base class and three variants
(`FeedForward`, `Seq2Vec`, `Seq2Seq`).  We embed the adapter layer shallowly:

* tensors are nested lists over `ℚ` (a batch is a list of sequences, a
  sequence is a list of hidden vectors, a vector is a list of rationals);
* a mask is a list of boolean rows;
* the wrapped architectures are opaque records carrying an output dimension,
  a bidirectionality flag and a `run` function;
* fallible code returns `Except String`;
* stateful method calls are modelled with explicit state passing
  (`forwardSt` returns the result together with the post-state), so that
  "forward does not mutate configuration" is a provable statement.

The numeric helpers `masked_mean`, `masked_max` and
`get_final_encoder_states` come from the external allennlp library and are
not part of this repository's sources; they are modelled from the spec
(see the doc comments below).
-/

namespace VAE

/-- A hidden vector: one rational per feature. -/
abbrev Vec := List ℚ

/-- Per-position encoder output for one batch row (length L, entries of
length H). -/
abbrev SeqOut := List Vec

/-- A batch of per-position outputs (shape B x L x H). -/
abbrev Batch := List SeqOut

/-- A batch of mask rows (shape B x L). -/
abbrev Mask := List (List Bool)

/-- Python's `s.split(",")` on the character list of `s`: split at every
comma, keep empty pieces, `"".split(",") == [""]`.  Translated from the
behaviour of `aggregations.split(",")` in `Seq2Seq.__init__`. -/
def splitComma : List Char → List (List Char)
  | [] => [[]]
  | c :: rest =>
    if c = ',' then [] :: splitComma rest
    else
      match splitComma rest with
      | [] => [[c]]
      | g :: gs => (c :: g) :: gs

/-- Python's `",".join(groups)`: interleave a comma between the groups. -/
def joinComma : List (List Char) → List Char
  | [] => []
  | [g] => g
  | g :: gs => g ++ ',' :: joinComma gs

/-- The rows of a sequence that the mask marks valid, in order. -/
def validRows : SeqOut → List Bool → List Vec
  | x :: xs, b :: m => if b then x :: validRows xs m else validRows xs m
  | _, _ => []

/-- Modelled from the spec: allennlp's `masked_mean` utility is not in
`src/`; the spec describes it as computing "the masked arithmetic mean over
the position axis", i.e. the componentwise mean of the vectors at the
mask's valid positions.  `H` is the hidden dimension of the result. -/
def maskedMean (H : ℕ) (xs : SeqOut) (m : List Bool) : Vec :=
  let vs := validRows xs m
  (List.range H).map (fun j => ((vs.map (fun v => v.getD j 0)).sum) / (vs.length : ℚ))

/-- Modelled from the spec: allennlp's `masked_max` utility is not in
`src/`; the spec describes it as computing "the masked maximum over the
position axis", i.e. the componentwise maximum of the vectors at the
mask's valid positions. -/
def maskedMax (H : ℕ) (xs : SeqOut) (m : List Bool) : Vec :=
  (List.range H).map (fun j =>
    match (validRows xs m).map (fun v => v.getD j 0) with
    | [] => (0 : ℚ)
    | a :: t => t.foldl max a)

/-- `encoded_output * broadcast_mask`: every position's vector is scaled by
the mask entry cast to a number (`mask.unsqueeze(-1).float()` followed by
elementwise multiplication in `Seq2Seq.forward`). -/
def maskMul : SeqOut → List Bool → SeqOut
  | x :: xs, b :: m => x.map (fun a => a * (if b then (1 : ℚ) else 0)) :: maskMul xs m
  | _, _ => []

/-- Index of the last valid position of a mask row, if any. -/
def lastValidIdx : List Bool → Option ℕ
  | [] => none
  | b :: m =>
    match lastValidIdx m with
    | some i => some (i + 1)
    | none => if b then some 0 else none

/-- The wrapped sequence-to-sequence architecture: opaque, with an output
dimension, a bidirectionality flag (`is_bidirectional()`) and the tensor
computation `run` (the `self._architecture(embedded_text, mask)` call). -/
structure SSArch where
  outputDim : ℕ
  bidirectional : Bool
  run : Batch → Mask → Batch

/-- Modelled from the spec: allennlp's `get_final_encoder_states` is not in
`src/`; the spec describes it as extracting "the encoder's final
valid-position state per batch element" and, for a bidirectional network,
concatenating the forward final state with the backward state taken at the
first position, per the standard convention. -/
def finalStateRow (arch : SSArch) (xs : SeqOut) (m : List Bool) : Vec :=
  let last :=
    match lastValidIdx m with
    | some i => xs.getD i []
    | none => []
  if arch.bidirectional then
    last.take (arch.outputDim / 2) ++ (xs.getD 0 []).drop (arch.outputDim / 2)
  else last

/-- One iteration of the aggregation loop in `Seq2Seq.forward`, applied to
the whole batch: dispatch on the aggregation name, producing one vector per
batch row, or a `ConfigurationError` for an unknown name. -/
def aggregateBatch (arch : SSArch) (aggregation : List Char) (out : Batch) (m : Mask) :
    Except String (List Vec) :=
  if aggregation = "meanpool".toList then
    .ok ((out.zip m).map (fun p => maskedMean arch.outputDim (maskMul p.1 p.2) p.2))
  else if aggregation = "maxpool".toList then
    .ok ((out.zip m).map (fun p => maskedMax arch.outputDim (maskMul p.1 p.2) p.2))
  else if aggregation = "final_state".toList then
    .ok ((out.zip m).map (fun p => finalStateRow arch p.1 p.2))
  else
    .error (aggregation.asString ++ " aggregation not available.")

/-- The aggregation loop: run the body on every configured name in order,
collecting the per-strategy results; the first error aborts the loop, as a
raised exception does in Python. -/
def mapME (f : List Char → Except String (List Vec)) :
    List (List Char) → Except String (List (List Vec))
  | [] => .ok []
  | a :: as =>
    match f a with
    | .error e => .error e
    | .ok b =>
      match mapME f as with
      | .error e => .error e
      | .ok bs => .ok (b :: bs)

/-- `torch.cat(encoded_repr, 1)`: concatenate the per-strategy batch
results along the feature axis, rowwise. -/
def catDim1 : List (List Vec) → List Vec
  | [] => []
  | [s] => s
  | s :: rest => List.zipWith (fun a b => a ++ b) s (catDim1 rest)

/-- The `Seq2Seq` encoder variant: the wrapped architecture together with
the parsed list of aggregation names. -/
structure Seq2Seq where
  architecture : SSArch
  aggregations : List (List Char)

/-- `Seq2Seq.__init__`: store the architecture and split the aggregation
string on commas. -/
def Seq2Seq.make (architecture : SSArch) (aggregations : String) : Seq2Seq :=
  ⟨architecture, splitComma aggregations.toList⟩

/-- `Seq2Seq.get_output_dim`: wrapped output dimension times the number of
aggregations. -/
def Seq2Seq.get_output_dim (e : Seq2Seq) : ℕ :=
  e.architecture.outputDim * e.aggregations.length

/-- `Seq2Seq.forward`: run the wrapped network once, aggregate per
configured strategy in order, concatenate along the feature axis. -/
def Seq2Seq.forward (e : Seq2Seq) (embedded_text : Batch) (mask : Mask) :
    Except String (List Vec) :=
  let encoded_output := e.architecture.run embedded_text mask
  match mapME (fun a => aggregateBatch e.architecture a encoded_output mask) e.aggregations with
  | .error err => .error err
  | .ok segs => .ok (catDim1 segs)

/-- `Seq2Seq.forward` with explicit state passing: the method body never
assigns to `self`, so the post-state is the receiver itself. -/
def Seq2Seq.forwardSt (e : Seq2Seq) (embedded_text : Batch) (mask : Mask) :
    Except String (List Vec) × Seq2Seq :=
  (e.forward embedded_text mask, e)

/-- An opaque architecture as seen by the abstract base class: only its
output dimension is used (`self._architecture.get_output_dim()`). -/
structure Arch where
  outputDim : ℕ

/-- The abstract `Encoder` base class. -/
structure Encoder where
  architecture : Arch

/-- `Encoder.get_output_dim`: delegate to the wrapped architecture. -/
def Encoder.get_output_dim (e : Encoder) : ℕ :=
  e.architecture.outputDim

/-- `Encoder.forward(*args)`: `raise NotImplementedError` before anything
else happens, so the state is returned unchanged. -/
def Encoder.forward (e : Encoder) (args : List Batch) :
    Except String (List Vec) × Encoder :=
  (.error "NotImplementedError", e)

/-- The wrapped feed-forward architecture. -/
structure FFArch where
  outputDim : ℕ
  run : List Vec → List Vec

/-- The `FeedForward` encoder variant. -/
structure FeedForward where
  architecture : FFArch

/-- `FeedForward.get_output_dim` (inherited from the base class). -/
def FeedForward.get_output_dim (e : FeedForward) : ℕ :=
  e.architecture.outputDim

/-- `FeedForward.forward` with explicit state passing: pure delegation. -/
def FeedForward.forwardSt (e : FeedForward) (embedded_text : List Vec) :
    List Vec × FeedForward :=
  (e.architecture.run embedded_text, e)

/-- The wrapped sequence-to-vector architecture. -/
structure SVArch where
  outputDim : ℕ
  run : Batch → Mask → List Vec

/-- The `Seq2Vec` encoder variant. -/
structure Seq2Vec where
  architecture : SVArch

/-- `Seq2Vec.get_output_dim` (inherited from the base class). -/
def Seq2Vec.get_output_dim (e : Seq2Vec) : ℕ :=
  e.architecture.outputDim

/-- `Seq2Vec.forward` with explicit state passing: pure delegation. -/
def Seq2Vec.forwardSt (e : Seq2Vec) (embedded_text : Batch) (mask : Mask) :
    List Vec × Seq2Vec :=
  (e.architecture.run embedded_text mask, e)

/-- The three supported aggregation names, as tested in `Seq2Seq.forward`. -/
def supportedAggregations : List (List Char) :=
  ["meanpool".toList, "maxpool".toList, "final_state".toList]


theorem splitComma_ne_nil (l : List Char) : splitComma l ≠ [] := by
  match l with
  | [] => simp [splitComma]
  | c :: rest =>
    simp only [splitComma]
    split
    · simp
    · cases h : splitComma rest <;> simp

theorem joinComma_splitComma (l : List Char) : joinComma (splitComma l) = l := by
  induction l with
  | nil => rfl
  | cons c rest ih =>
    simp only [splitComma]
    split
    · subst_eqs
      cases h : splitComma rest with
      | nil => exact absurd h (splitComma_ne_nil rest)
      | cons g gs =>
        rw [h] at ih
        simp [joinComma, ← ih]
    · cases h : splitComma rest with
      | nil => exact absurd h (splitComma_ne_nil rest)
      | cons g gs =>
        rw [h] at ih
        cases gs with
        | nil => simpa [joinComma] using congrArg (c :: ·) ih
        | cons g2 gs2 => simpa [joinComma] using congrArg (c :: ·) ih

theorem splitComma_no_comma (l : List Char) : ∀ g ∈ splitComma l, ',' ∉ g := by
  induction l with
  | nil => simp [splitComma]
  | cons c rest ih =>
    simp only [splitComma]
    split
    · intro g hg
      rcases List.mem_cons.mp hg with h | h
      · simp [h]
      · exact ih g h
    · rename_i hc
      cases h : splitComma rest with
      | nil => exact absurd h (splitComma_ne_nil rest)
      | cons g gs =>
        rw [h] at ih
        intro g' hg'
        rcases List.mem_cons.mp hg' with h' | h'
        · subst h'
          intro hmem
          rcases List.mem_cons.mp hmem with h2 | h2
          · exact hc h2.symm
          · exact ih g (List.mem_cons_self g gs) h2
        · exact ih g' (List.mem_cons.mpr (Or.inr h'))

theorem mapME_ok_length (f : List Char → Except String (List Vec)) (l : List (List Char))
    (r : List (List Vec)) (h : mapME f l = .ok r) : r.length = l.length := by
  induction l generalizing r with
  | nil => simp [mapME] at h; simp [← h]
  | cons a as ih =>
    simp only [mapME] at h
    cases hfa : f a with
    | error e => rw [hfa] at h; simp at h
    | ok b =>
      rw [hfa] at h
      cases hrec : mapME f as with
      | error e => rw [hrec] at h; simp at h
      | ok bs =>
        rw [hrec] at h
        simp only [Except.ok.injEq] at h
        subst h
        simp [ih bs hrec]

theorem mapME_ok_getD (f : List Char → Except String (List Vec)) (l : List (List Char))
    (r : List (List Vec)) (h : mapME f l = .ok r) :
    ∀ i, i < l.length → f (l.getD i []) = .ok (r.getD i []) := by
  induction l generalizing r with
  | nil => intro i hi; simp at hi
  | cons a as ih =>
    simp only [mapME] at h
    cases hfa : f a with
    | error e => rw [hfa] at h; simp at h
    | ok b =>
      rw [hfa] at h
      cases hrec : mapME f as with
      | error e => rw [hrec] at h; simp at h
      | ok bs =>
        rw [hrec] at h
        simp only [Except.ok.injEq] at h
        subst h
        intro i hi
        cases i with
        | zero => simpa using hfa
        | succ n =>
          simp only [List.getD_cons_succ]
          exact ih bs hrec n (by simpa using hi)

theorem mapME_first_error (f : List Char → Except String (List Vec)) (l : List (List Char))
    (h : ∃ a ∈ l, ∃ e, f a = .error e) :
    ∃ b ∈ l, ∃ e, f b = .error e ∧ mapME f l = .error e := by
  induction l with
  | nil => simp at h
  | cons a as ih =>
    cases hfa : f a with
    | error e =>
      exact ⟨a, List.mem_cons_self a as, e, hfa, by simp [mapME, hfa]⟩
    | ok v =>
      obtain ⟨a', ha', e', he'⟩ := h
      rcases List.mem_cons.mp ha' with rfl | hmem
      · rw [hfa] at he'; simp at he'
      · obtain ⟨b, hb, e2, he2, hmap⟩ := ih ⟨a', hmem, e', he'⟩
        exact ⟨b, List.mem_cons.mpr (Or.inr hb), e2, he2, by simp [mapME, hfa, hmap]⟩

theorem validRows_maskMul (xs : SeqOut) (m : List Bool) :
    validRows (maskMul xs m) m = validRows xs m := by
  induction xs generalizing m with
  | nil => cases m <;> rfl
  | cons x xs ih =>
    cases m with
    | nil => rfl
    | cons b m =>
      cases b with
      | false => simpa [maskMul, validRows] using ih m
      | true =>
        simp only [maskMul, validRows, if_pos, if_true]
        rw [ih m]
        congr 1
        simp

theorem validRows_count_zero (xs : SeqOut) (m : List Bool) (h : m.count true = 0) :
    validRows xs m = [] := by
  induction xs generalizing m with
  | nil => cases m <;> rfl
  | cons x xs ih =>
    cases m with
    | nil => rfl
    | cons b m =>
      cases b with
      | true => simp [List.count_cons] at h
      | false =>
        simp only [List.count_cons] at h
        simpa [validRows] using ih m (by simpa using h)

theorem validRows_single (xs : SeqOut) (m : List Bool) (hlen : xs.length = m.length)
    (hcount : m.count true = 1) (i : ℕ) (hi : i < m.length)
    (hvalid : m.getD i false = true) :
    validRows xs m = [xs.getD i []] := by
  induction xs generalizing m i with
  | nil =>
    cases m with
    | nil => simp at hi
    | cons b m => simp at hlen
  | cons x xs ih =>
    cases m with
    | nil => simp at hlen
    | cons b m =>
      cases b with
      | true =>
        have hm0 : m.count true = 0 := by simpa [List.count_cons] using hcount
        cases i with
        | zero =>
          simp [validRows, validRows_count_zero xs m hm0]
        | succ n =>
          have : m.getD n false = true := by simpa using hvalid
          have hn : n < m.length := by simpa using hi
          have hmem : (true : Bool) ∈ m := by
            rw [← this, List.getD_eq_getElem m false hn]
            exact List.getElem_mem hn
          rw [← List.count_pos_iff] at hmem
          omega
      | false =>
        have hm1 : m.count true = 1 := by simpa [List.count_cons] using hcount
        cases i with
        | zero => simp at hvalid
        | succ n =>
          have hv : m.getD n false = true := by simpa using hvalid
          have hn : n < m.length := by simpa using hi
          simpa [validRows] using ih m (by simpa using hlen) hm1 n hn hv

theorem range_map_getD (v : Vec) :
    (List.range v.length).map (fun j => v.getD j 0) = v := by
  apply List.ext_getElem
  · simp
  · intro i h1 h2
    simp only [List.getElem_map, List.getElem_range]
    exact List.getD_eq_getElem v 0 h2

theorem maskedMean_maskMul (H : ℕ) (xs : SeqOut) (m : List Bool) :
    maskedMean H (maskMul xs m) m = maskedMean H xs m := by
  unfold maskedMean
  rw [validRows_maskMul]

theorem maskedMax_maskMul (H : ℕ) (xs : SeqOut) (m : List Bool) :
    maskedMax H (maskMul xs m) m = maskedMax H xs m := by
  unfold maskedMax
  rw [validRows_maskMul]

theorem maskedMean_single (xs : SeqOut) (m : List Bool) (i : ℕ)
    (hlen : xs.length = m.length) (hcount : m.count true = 1)
    (hi : i < m.length) (hvalid : m.getD i false = true) :
    maskedMean (xs.getD i []).length (maskMul xs m) m = xs.getD i [] := by
  unfold maskedMean
  rw [validRows_maskMul, validRows_single xs m hlen hcount i hi hvalid]
  simpa [div_one] using range_map_getD (xs.getD i [])

theorem maskedMax_single (xs : SeqOut) (m : List Bool) (i : ℕ)
    (hlen : xs.length = m.length) (hcount : m.count true = 1)
    (hi : i < m.length) (hvalid : m.getD i false = true) :
    maskedMax (xs.getD i []).length (maskMul xs m) m = xs.getD i [] := by
  unfold maskedMax
  rw [validRows_maskMul, validRows_single xs m hlen hcount i hi hvalid]
  simpa using range_map_getD (xs.getD i [])

theorem zipMap_getD (f : SeqOut × List Bool → Vec) (out : Batch) (m : Mask) (b : ℕ)
    (h1 : b < out.length) (h2 : b < m.length) :
    ((out.zip m).map f).getD b [] = f (out.getD b [], m.getD b []) := by
  have hz : b < ((out.zip m).map f).length := by
    simp [List.length_zip]
    omega
  rw [List.getD_eq_getElem _ _ hz]
  simp only [List.getElem_map, List.getElem_zip]
  rw [List.getD_eq_getElem out [] h1, List.getD_eq_getElem m [] h2]

theorem aggregateBatch_meanpool (arch : SSArch) (out : Batch) (m : Mask) :
    aggregateBatch arch ("meanpool".toList) out m =
      .ok ((out.zip m).map (fun p => maskedMean arch.outputDim (maskMul p.1 p.2) p.2)) := by
  unfold aggregateBatch
  rw [if_pos rfl]

theorem aggregateBatch_maxpool (arch : SSArch) (out : Batch) (m : Mask) :
    aggregateBatch arch ("maxpool".toList) out m =
      .ok ((out.zip m).map (fun p => maskedMax arch.outputDim (maskMul p.1 p.2) p.2)) := by
  unfold aggregateBatch
  rw [if_neg (by decide), if_pos rfl]

theorem aggregateBatch_final_state (arch : SSArch) (out : Batch) (m : Mask) :
    aggregateBatch arch ("final_state".toList) out m =
      .ok ((out.zip m).map (fun p => finalStateRow arch p.1 p.2)) := by
  unfold aggregateBatch
  rw [if_neg (by decide), if_neg (by decide), if_pos rfl]

theorem aggregateBatch_invalid (arch : SSArch) (a : List Char) (out : Batch) (m : Mask)
    (h : a ∉ supportedAggregations) :
    aggregateBatch arch a out m = .error (a.asString ++ " aggregation not available.") := by
  simp only [supportedAggregations, List.mem_cons, List.not_mem_nil, or_false, not_or] at h
  obtain ⟨h1, h2, h3⟩ := h
  unfold aggregateBatch
  rw [if_neg h1, if_neg h2, if_neg (by simpa using h3)]

theorem aggregateBatch_valid_ok (arch : SSArch) (a : List Char) (out : Batch) (m : Mask)
    (h : a ∈ supportedAggregations) :
    ∃ r, aggregateBatch arch a out m = .ok r := by
  simp only [supportedAggregations, List.mem_cons, List.not_mem_nil, or_false] at h
  rcases h with rfl | rfl | rfl
  · exact ⟨_, aggregateBatch_meanpool arch out m⟩
  · exact ⟨_, aggregateBatch_maxpool arch out m⟩
  · exact ⟨_, aggregateBatch_final_state arch out m⟩

theorem Seq2Seq.forward_eq (e : Seq2Seq) (x : Batch) (m : Mask) :
    e.forward x m =
      match mapME (fun a => aggregateBatch e.architecture a (e.architecture.run x m) m)
          e.aggregations with
      | .error err => .error err
      | .ok segs => .ok (catDim1 segs) := rfl

theorem foldl_fixed {α β : Type} (g : α → β → α) (h : ∀ a b, g a b = a) :
    ∀ (l : List β) (e : α), l.foldl g e = e
  | [], _ => rfl
  | b :: l, e => by rw [List.foldl_cons, h]; exact foldl_fixed g h l e

/-- A concrete seq2seq architecture used to instantiate theorems: output
dimension 2, unidirectional, and the per-position computation is the
identity on the embedded input. -/
def archW : SSArch := { outputDim := 2, bidirectional := false, run := fun x _ => x }

/-- Claim C1: for every Seq2Seq encoder instance, `output_dimension()`
equals the wrapped architecture's output dimension multiplied by the number
of configured aggregation strategies, both before and after any forward
call (the forward post-state is the unchanged instance). -/
theorem claim_c1_output_dim (arch : SSArch) (s : String) (x : Batch) (m : Mask) :
    (Seq2Seq.make arch s).get_output_dim
        = arch.outputDim * (Seq2Seq.make arch s).aggregations.length
    ∧ ((Seq2Seq.make arch s).forwardSt x m).2.get_output_dim
        = arch.outputDim * (Seq2Seq.make arch s).aggregations.length :=
  ⟨rfl, rfl⟩

/-- Claim C8: calling the abstract base `Encoder.forward` directly, with
any arguments, fails with the "not implemented" error and leaves the
instance unchanged. -/
theorem claim_c8_base_forward (e : Encoder) (as : List Batch) :
    (e.forward as).1 = .error "NotImplementedError" ∧ (e.forward as).2 = e :=
  ⟨rfl, rfl⟩

/-- Claim C9: for all three variants, forward never mutates the instance
(the post-state equals the pre-state), so `output_dimension()` returns the
same value before and after any sequence of forward calls; it is a pure
function of the stored configuration, hence deterministic. -/
theorem claim_c9_output_dim_frame :
    (∀ (e : FeedForward) (x : List Vec), (e.forwardSt x).2 = e)
    ∧ (∀ (e : Seq2Vec) (x : Batch) (m : Mask), (e.forwardSt x m).2 = e)
    ∧ (∀ (e : Seq2Seq) (x : Batch) (m : Mask), (e.forwardSt x m).2 = e)
    ∧ (∀ (e : FeedForward) (calls : List (List Vec)),
        (calls.foldl (fun st x => (st.forwardSt x).2) e).get_output_dim = e.get_output_dim)
    ∧ (∀ (e : Seq2Vec) (calls : List (Batch × Mask)),
        (calls.foldl (fun st p => (st.forwardSt p.1 p.2).2) e).get_output_dim
          = e.get_output_dim)
    ∧ (∀ (e : Seq2Seq) (calls : List (Batch × Mask)),
        (calls.foldl (fun st p => (st.forwardSt p.1 p.2).2) e).get_output_dim
          = e.get_output_dim) := by
  refine ⟨fun e x => rfl, fun e x m => rfl, fun e x m => rfl, ?_, ?_, ?_⟩
  · intro e calls
    rw [foldl_fixed (fun (st : FeedForward) (x : List Vec) => (st.forwardSt x).2)
      (fun a b => rfl) calls e]
  · intro e calls
    rw [foldl_fixed (fun (st : Seq2Vec) (p : Batch × Mask) => (st.forwardSt p.1 p.2).2)
      (fun a b => rfl) calls e]
  · intro e calls
    rw [foldl_fixed (fun (st : Seq2Seq) (p : Batch × Mask) => (st.forwardSt p.1 p.2).2)
      (fun a b => rfl) calls e]

/-- Claim C4: construction splits the aggregation string on commas into an
ordered list; joining the stored list back with commas recovers the
original string exactly (so order and duplicates are preserved and nothing
is trimmed), no group contains a comma, and no validation happens at
construction time (`Seq2Seq.make` is total). -/
theorem claim_c4_split (arch : SSArch) (s : String) :
    (Seq2Seq.make arch s).aggregations = splitComma s.toList
    ∧ joinComma (Seq2Seq.make arch s).aggregations = s.toList
    ∧ ∀ g ∈ (Seq2Seq.make arch s).aggregations, ',' ∉ g :=
  ⟨rfl, joinComma_splitComma s.toList, splitComma_no_comma s.toList⟩

/-- Witness for C4 at the concrete string " mean,,pool " (whitespace and an
empty group survive the split untouched). -/
theorem claim_c4_split_witness :
    (Seq2Seq.make archW " mean,,pool ").aggregations = splitComma (String.toList " mean,,pool ")
    ∧ joinComma (Seq2Seq.make archW " mean,,pool ").aggregations = String.toList " mean,,pool "
    ∧ (',' ∉ (Seq2Seq.make archW " mean,,pool ").aggregations.getD 0 []) := by
  have h := claim_c4_split archW " mean,,pool "
  exact ⟨h.1, h.2.1, h.2.2 _ (by decide)⟩

/-- Claim C10: the empty aggregation string parses to the one-element list
containing the empty name, so `output_dimension()` is the wrapped dimension
times one, while every forward call fails with the configuration error for
the empty name. -/
theorem claim_c10_empty_string (arch : SSArch) (x : Batch) (m : Mask) :
    (Seq2Seq.make arch "").aggregations = [[]]
    ∧ (Seq2Seq.make arch "").get_output_dim = arch.outputDim
    ∧ (Seq2Seq.make arch "").forward x m = .error " aggregation not available." := by
  refine ⟨rfl, ?_, ?_⟩
  · show arch.outputDim * 1 = arch.outputDim
    exact Nat.mul_one _
  · have h1 : aggregateBatch arch [] (arch.run x m) m
        = .error ((List.asString []) ++ " aggregation not available.") :=
      aggregateBatch_invalid arch [] _ m (by decide)
    have h2 : (List.asString []) ++ " aggregation not available."
        = " aggregation not available." := by decide
    rw [Seq2Seq.forward_eq]
    show (match mapME (fun a => aggregateBatch arch a (arch.run x m) m) [[]] with
      | .error err => Except.error err
      | .ok segs => .ok (catDim1 segs)) = _
    simp [mapME, h1, h2]

/-- Claim C2: whenever a forward call succeeds, the output is the rowwise
concatenation, along the feature axis, of the per-strategy batch results
taken in the literal left-to-right order of the comma-split configuration
string, and positions of the list holding the same strategy name receive
identical segments. -/
theorem claim_c2_concat_order (arch : SSArch) (s : String) (x : Batch) (m : Mask)
    (out : List Vec) (h : (Seq2Seq.make arch s).forward x m = .ok out) :
    ∃ segs,
      mapME (fun a => aggregateBatch arch a (arch.run x m) m) (splitComma s.toList) = .ok segs
      ∧ out = catDim1 segs
      ∧ segs.length = (splitComma s.toList).length
      ∧ ∀ i j, i < (splitComma s.toList).length → j < (splitComma s.toList).length →
          (splitComma s.toList).getD i [] = (splitComma s.toList).getD j [] →
          segs.getD i [] = segs.getD j [] := by
  rw [Seq2Seq.forward_eq] at h
  simp only [Seq2Seq.make] at h
  cases hm : mapME (fun a => aggregateBatch arch a (arch.run x m) m) (splitComma s.toList) with
  | error err => rw [hm] at h; simp at h
  | ok segs =>
    rw [hm] at h
    simp only [Except.ok.injEq] at h
    refine ⟨segs, rfl, h.symm, mapME_ok_length _ _ _ hm, ?_⟩
    intro i j hi hj heq
    have h1 := mapME_ok_getD _ _ _ hm i hi
    have h2 := mapME_ok_getD _ _ _ hm j hj
    rw [heq, h2] at h1
    simpa using h1.symm

/-- Witness for C2: the repeated configuration "final_state,final_state"
on a one-row batch succeeds and yields two identical segments. -/
theorem claim_c2_concat_order_witness :
    (Seq2Seq.make archW "final_state,final_state").forward [[[1, 2], [3, 4]]] [[true, false]]
      = .ok [[1, 2, 1, 2]]
    ∧ ∃ segs,
        mapME (fun a => aggregateBatch archW a (archW.run [[[1, 2], [3, 4]]] [[true, false]])
            [[true, false]])
          (splitComma (String.toList "final_state,final_state")) = .ok segs
        ∧ [[1, 2, 1, 2]] = catDim1 segs
        ∧ segs.length = (splitComma (String.toList "final_state,final_state")).length
        ∧ ∀ i j, i < (splitComma (String.toList "final_state,final_state")).length →
            j < (splitComma (String.toList "final_state,final_state")).length →
            (splitComma (String.toList "final_state,final_state")).getD i []
              = (splitComma (String.toList "final_state,final_state")).getD j [] →
            segs.getD i [] = segs.getD j [] :=
  ⟨rfl, claim_c2_concat_order archW "final_state,final_state" [[[1, 2], [3, 4]]]
    [[true, false]] [[1, 2, 1, 2]] rfl⟩

/-- Claim C3: for a Seq2Seq instance whose aggregation list contains an
unsupported name, construction has already succeeded (`Seq2Seq.make` is
total) and every forward call fails with a configuration error naming an
unsupported aggregation from the list. -/
theorem claim_c3_invalid_aggregation (e : Seq2Seq) (a : List Char)
    (ha : a ∈ e.aggregations) (hbad : a ∉ supportedAggregations)
    (x : Batch) (m : Mask) :
    ∃ bad ∈ e.aggregations, bad ∉ supportedAggregations
      ∧ e.forward x m = .error (bad.asString ++ " aggregation not available.") := by
  have hex : ∃ g ∈ e.aggregations, ∃ err,
      (fun g => aggregateBatch e.architecture g (e.architecture.run x m) m) g = .error err :=
    ⟨a, ha, _, aggregateBatch_invalid e.architecture a _ m hbad⟩
  obtain ⟨b, hb, err, hfb, hmap⟩ := mapME_first_error _ _ hex
  have hbinv : b ∉ supportedAggregations := by
    intro hvalid
    obtain ⟨r, hr⟩ := aggregateBatch_valid_ok e.architecture b (e.architecture.run x m) m hvalid
    simp only [hr] at hfb
    exact Except.noConfusion hfb
  have herr : err = b.asString ++ " aggregation not available." := by
    have hinv := aggregateBatch_invalid e.architecture b (e.architecture.run x m) m hbinv
    simp only [hinv, Except.error.injEq] at hfb
    exact hfb.symm
  refine ⟨b, hb, hbinv, ?_⟩
  rw [Seq2Seq.forward_eq, hmap, herr]

/-- Witness for C3: with configuration "meanpool,sumpool" the forward call
on an empty batch fails, naming "sumpool". -/
theorem claim_c3_invalid_aggregation_witness :
    ("sumpool".toList ∈ (Seq2Seq.make archW "meanpool,sumpool").aggregations
      ∧ "sumpool".toList ∉ supportedAggregations)
    ∧ ∃ bad ∈ (Seq2Seq.make archW "meanpool,sumpool").aggregations,
        bad ∉ supportedAggregations
        ∧ (Seq2Seq.make archW "meanpool,sumpool").forward [] []
            = .error (bad.asString ++ " aggregation not available.") :=
  ⟨⟨by decide, by decide⟩,
    claim_c3_invalid_aggregation (Seq2Seq.make archW "meanpool,sumpool") ("sumpool".toList)
      (by decide) (by decide) [] []⟩

/-- Claim C5: on a batch whose mask row `b` has exactly one valid position
`i`, both the meanpool and the maxpool aggregation of the wrapped network's
output give, for row `b`, exactly the output vector at position `i`. -/
theorem claim_c5_single_valid_position (arch : SSArch) (x : Batch) (m : Mask) (b i : ℕ)
    (hb1 : b < (arch.run x m).length) (hb2 : b < m.length)
    (hlen : ((arch.run x m).getD b []).length = (m.getD b []).length)
    (hcount : (m.getD b []).count true = 1)
    (hi : i < (m.getD b []).length)
    (hvalid : (m.getD b []).getD i false = true)
    (hH : (((arch.run x m).getD b []).getD i []).length = arch.outputDim) :
    ∃ sMean sMax,
      aggregateBatch arch ("meanpool".toList) (arch.run x m) m = .ok sMean
      ∧ aggregateBatch arch ("maxpool".toList) (arch.run x m) m = .ok sMax
      ∧ sMean.getD b [] = ((arch.run x m).getD b []).getD i []
      ∧ sMax.getD b [] = ((arch.run x m).getD b []).getD i [] := by
  refine ⟨_, _, aggregateBatch_meanpool arch _ m, aggregateBatch_maxpool arch _ m, ?_, ?_⟩
  · rw [zipMap_getD _ _ m b hb1 hb2, ← hH]
    exact maskedMean_single ((arch.run x m).getD b []) (m.getD b []) i hlen hcount hi hvalid
  · rw [zipMap_getD _ _ m b hb1 hb2, ← hH]
    exact maskedMax_single ((arch.run x m).getD b []) (m.getD b []) i hlen hcount hi hvalid

/-- Witness for C5: identity architecture, one batch row with the second
position as the only valid one. -/
theorem claim_c5_single_valid_position_witness :
    ((0 < (archW.run [[[1, 2], [3, 4]]] [[false, true]]).length)
      ∧ ([[false, true]].getD 0 []).count true = 1
      ∧ ([[false, true]].getD 0 []).getD 1 false = true)
    ∧ ∃ sMean sMax,
        aggregateBatch archW ("meanpool".toList) (archW.run [[[1, 2], [3, 4]]] [[false, true]])
            [[false, true]] = .ok sMean
        ∧ aggregateBatch archW ("maxpool".toList) (archW.run [[[1, 2], [3, 4]]] [[false, true]])
            [[false, true]] = .ok sMax
        ∧ sMean.getD 0 []
            = ((archW.run [[[1, 2], [3, 4]]] [[false, true]]).getD 0 []).getD 1 []
        ∧ sMax.getD 0 []
            = ((archW.run [[[1, 2], [3, 4]]] [[false, true]]).getD 0 []).getD 1 [] :=
  ⟨⟨by decide, by decide, by decide⟩,
    claim_c5_single_valid_position archW [[[1, 2], [3, 4]]] [[false, true]] 0 1
      (by decide) (by decide) (by decide) (by decide) (by decide) (by decide) (by decide)⟩

/-- Claim C6: with a non-bidirectional wrapped network, the final-state
aggregation gives, for each batch row, the wrapped network's output vector
at the row's last valid position as indicated by the mask. -/
theorem claim_c6_final_state (arch : SSArch) (x : Batch) (m : Mask) (b i : ℕ)
    (hbi : arch.bidirectional = false)
    (hb1 : b < (arch.run x m).length) (hb2 : b < m.length)
    (hlast : lastValidIdx (m.getD b []) = some i) :
    ∃ seg, aggregateBatch arch ("final_state".toList) (arch.run x m) m = .ok seg
      ∧ seg.getD b [] = ((arch.run x m).getD b []).getD i [] := by
  refine ⟨_, aggregateBatch_final_state arch _ m, ?_⟩
  rw [zipMap_getD _ _ m b hb1 hb2]
  simp only [finalStateRow, hbi]
  rw [hlast]
  simp

/-- Witness for C6: identity architecture, a mask whose last valid position
is the first of two. -/
theorem claim_c6_final_state_witness :
    (archW.bidirectional = false ∧ lastValidIdx ([[true, false]].getD 0 []) = some 0)
    ∧ ∃ seg,
        aggregateBatch archW ("final_state".toList)
            (archW.run [[[1, 2], [3, 4]]] [[true, false]]) [[true, false]] = .ok seg
        ∧ seg.getD 0 []
            = ((archW.run [[[1, 2], [3, 4]]] [[true, false]]).getD 0 []).getD 0 [] :=
  ⟨⟨by decide, by decide⟩,
    claim_c6_final_state archW [[[1, 2], [3, 4]]] [[true, false]] 0 0
      (by decide) (by decide) (by decide) (by decide)⟩

/-- Claim C7: pre-multiplying the per-position outputs by the broadcast
mask before handing them to the masked-mean or masked-max utility, which
receives the same mask, changes nothing: the double masking is redundant,
both at the level of a single row and along the meanpool/maxpool code
paths of the aggregation dispatch. -/
theorem claim_c7_double_mask_redundant (arch : SSArch) (out : Batch) (m : Mask)
    (H : ℕ) (xs : SeqOut) (mr : List Bool) :
    maskedMean H (maskMul xs mr) mr = maskedMean H xs mr
    ∧ maskedMax H (maskMul xs mr) mr = maskedMax H xs mr
    ∧ aggregateBatch arch ("meanpool".toList) out m
        = .ok ((out.zip m).map (fun p => maskedMean arch.outputDim p.1 p.2))
    ∧ aggregateBatch arch ("maxpool".toList) out m
        = .ok ((out.zip m).map (fun p => maskedMax arch.outputDim p.1 p.2)) := by
  refine ⟨maskedMean_maskMul H xs mr, maskedMax_maskMul H xs mr, ?_, ?_⟩
  · rw [aggregateBatch_meanpool]
    have hf : (fun (p : SeqOut × List Bool) => maskedMean arch.outputDim (maskMul p.1 p.2) p.2)
        = fun p => maskedMean arch.outputDim p.1 p.2 :=
      funext fun p => maskedMean_maskMul arch.outputDim p.1 p.2
    rw [hf]
  · rw [aggregateBatch_maxpool]
    have hf : (fun (p : SeqOut × List Bool) => maskedMax arch.outputDim (maskMul p.1 p.2) p.2)
        = fun p => maskedMax arch.outputDim p.1 p.2 :=
      funext fun p => maskedMax_maskMul arch.outputDim p.1 p.2
    rw [hf]

end VAE
